import Mathlib

/-!
Verification of the asset-installation engine of the `ubi` repository
(`src/ubi/src/installer.rs`) against its natural-language specification.

The Rust code is shallowly embedded: paths become a structure of normal
components plus an absolute flag, archive entries become structures holding
the fields the code reads, the streaming loops become structural recursions
over entry lists, and the filesystem effects of an install become an explicit
list of actions returned alongside the result.  Fallible Rust functions
returning `Result` become `Except InstallerError`; the one place the source
calls `.unwrap()` on a fallible operation is modelled by a distinct
`Outcome.aborted` constructor (a Rust panic aborts instead of returning).

The repository's `extension.rs` is not part of the provided sources (only
`installer.rs` is), so the `Extension` enum and its methods are modelled from
the spec, as marked on each of those definitions.
-/

/-- Model of a Rust `Path`/`PathBuf`: a flag saying whether the path is
absolute plus its list of normal components (each a nonempty name with no
separators).  The empty relative path models Rust's `Path::new("")` and the
empty absolute path models `/`. -/
structure RPath where
  absolute : Bool
  components : List String
deriving DecidableEq, Repr

/-- Rust `Path::parent`: `None` exactly for the empty path and the bare root;
for a path with at least one component it drops the last component (so the
parent of a bare filename is the empty relative path, not `None`). -/
def RPath.parent (p : RPath) : Option RPath :=
  match p.components with
  | [] => none
  | _ :: _ => some ⟨p.absolute, p.components.dropLast⟩

/-- Rust `Path::file_name`: the last normal component, if any. -/
def RPath.fileName? (p : RPath) : Option String :=
  p.components.getLast?

/-- Append a single component (Rust `Path::join` with a one-component path). -/
def RPath.child (p : RPath) (c : String) : RPath :=
  ⟨p.absolute, p.components ++ [c]⟩

/-- Append a relative component list (Rust `Path::join`). -/
def RPath.joinRel (p : RPath) (rel : List String) : RPath :=
  ⟨p.absolute, p.components ++ rel⟩

/-- Rust `str::ends_with`, computed structurally on the character list so
that proofs can evaluate it. -/
def strEndsWith (s suf : String) : Bool :=
  suf.data.isSuffixOf s.data

/-- Rust `str::starts_with`, computed structurally on the character list. -/
def strStartsWith (s pre : String) : Bool :=
  pre.data.isPrefixOf s.data

/-- Rust `str::to_lowercase`, computed structurally on the character list.
Rust lowercases full Unicode while `Char.toLower` is ASCII-only; the two
agree on ASCII names, which is all the claims exercise. -/
def strToLower (s : String) : String :=
  ⟨s.data.map Char.toLower⟩

/-- Split a character list at its last dot: returns the parts before and
after the last `.` when one exists. -/
def lastDotSplit : List Char → Option (List Char × List Char)
  | [] => none
  | c :: rest =>
    match lastDotSplit rest with
    | some (pre, post) => some (c :: pre, post)
    | none => if c = '.' then some ([], rest) else none

/-- Rust file-name splitting into `file_stem` and `extension`: the extension
is the portion after the last dot, unless there is no dot or the only dot is
leading (a hidden file like `.gitignore` has no extension). -/
def rustSplitExt (name : String) : String × Option String :=
  match lastDotSplit name.data with
  | some (pre, post) =>
    if pre.isEmpty then (name, none) else (⟨pre⟩, some ⟨post⟩)
  | none => (name, none)

/-- Rust `Path::extension` on the model. -/
def RPath.extension (p : RPath) : Option String :=
  p.fileName?.bind fun n => (rustSplitExt n).2

/-- Rust `PathBuf::set_extension`: replaces the extension of the final
component (a no-op when the path has no final component). -/
def RPath.setExtension (p : RPath) (ext : String) : RPath :=
  match p.components.getLast? with
  | none => p
  | some name =>
    let stem := (rustSplitExt name).1
    let newName := if ext.data.isEmpty then stem else stem ++ "." ++ ext
    ⟨p.absolute, p.components.dropLast ++ [newName]⟩

/-- Modelled from the spec: the `Extension` enum of the repository's
`extension.rs`, which is not among the provided sources.  The variants are
exactly those the exhaustive matches in `installer.rs` require, and the spec's
classifier table (section 6) lists the corresponding suffixes. -/
inductive Extension where
  | AppImage | Bat | Bz | Bz2 | Exe | Gz | Pyz
  | Tar | TarBz | TarBz2 | TarGz | TarXz | Tbz | Tgz | Txz
  | Xz | Zip
deriving DecidableEq, Repr

/-- Modelled from the spec: `Extension::extension`, the suffix (with dot) of
each variant. -/
def Extension.extension : Extension → String
  | .AppImage => ".AppImage"
  | .Bat => ".bat"
  | .Bz => ".bz"
  | .Bz2 => ".bz2"
  | .Exe => ".exe"
  | .Gz => ".gz"
  | .Pyz => ".pyz"
  | .Tar => ".tar"
  | .TarBz => ".tar.bz"
  | .TarBz2 => ".tar.bz2"
  | .TarGz => ".tar.gz"
  | .TarXz => ".tar.xz"
  | .Tbz => ".tbz"
  | .Tgz => ".tgz"
  | .Txz => ".txz"
  | .Xz => ".xz"
  | .Zip => ".zip"

/-- Modelled from the spec: `Extension::extension_without_dot`. -/
def Extension.extensionWithoutDot (e : Extension) : String :=
  ⟨e.extension.data.filter (· ≠ '.')⟩

/-- Modelled from the spec: `Extension::is_windows_only` — the fixed
Windows-only suffixes are `.exe` and `.bat` (spec section 4.3). -/
def Extension.isWindowsOnly : Extension → Bool
  | .Bat | .Exe => true
  | _ => false

/-- Modelled from the spec: `Extension::should_preserve_extension_on_install`
— the preserved extension classes are AppImage, bat, exe and pyz (spec
section 4.4 step 5). -/
def Extension.shouldPreserveExtensionOnInstall : Extension → Bool
  | .AppImage | .Bat | .Exe | .Pyz => true
  | _ => false

/-- Modelled from the spec: `Extension::iter` (strum), the variants in
declaration order; used by `ExeInstaller::new` to build the Windows-only
suffix list. -/
def Extension.iter : List Extension :=
  [.AppImage, .Bat, .Bz, .Bz2, .Exe, .Gz, .Pyz,
   .Tar, .TarBz, .TarBz2, .TarGz, .TarXz, .Tbz, .Tgz, .Txz, .Xz, .Zip]

/-- Modelled from the spec: the classifier table of `Extension::from_path`
restricted to a file name — the longest known multi-part suffix wins
(`.tar.gz` before `.gz`), matching is case-sensitive, and the spec's table
groups `.tar.bz2`/`.tbz2` as one Format.  Suffixes are tried longest first. -/
def Extension.fromName (name : String) : Option Extension :=
  let table : List (String × Extension) :=
    [(".AppImage", .AppImage),
     (".tar.bz2", .TarBz2),
     (".tar.bz", .TarBz), (".tar.gz", .TarGz), (".tar.xz", .TarXz),
     (".tbz2", .TarBz2),
     (".tar", .Tar), (".tbz", .Tbz), (".tgz", .Tgz), (".txz", .Txz),
     (".bz2", .Bz2), (".bat", .Bat), (".exe", .Exe), (".pyz", .Pyz),
     (".zip", .Zip),
     (".bz", .Bz), (".gz", .Gz), (".xz", .Xz)]
  (table.find? fun (suf, _) => strEndsWith name suf).map (·.2)

/-- Modelled from the spec: `Extension::from_path` — classification is
derived solely from the asset's filename suffix; an unmatched suffix (or a
path with no file name) yields `none`, the "unknown" Format. -/
def Extension.fromPath (p : RPath) : Option Extension :=
  p.fileName?.bind Extension.fromName

example : Extension.fromPath ⟨false, ["project.tar.gz"]⟩ = some .TarGz := by decide
example : Extension.fromPath ⟨false, ["project.gz"]⟩ = some .Gz := by decide
example : Extension.fromPath ⟨false, ["project.pyz"]⟩ = some .Pyz := by decide
example : Extension.fromPath ⟨false, ["project"]⟩ = none := by decide

/-- The error kinds `installer.rs` can produce (the display strings are not
modelled, only the identity of each error).  `noParent` is the spec's
`InstallDirectoryError`, `couldNotFindArchiveMatches` its
`NoMatchingEntryError`, `notAnArchive` its `NotAnArchiveError`, and
`noPathComponents` its `EmptyArchiveError` ("directory entry has no path
components"); `noDirInPath` is the error of `move_contents_up_one_dir`. -/
inductive InstallerError where
  | noParent
  | couldNotFindArchiveMatches
  | notAnArchive
  | noPathComponents
  | noDirInPath
deriving DecidableEq, Repr

/-- A filesystem effect performed by an install, recorded in order. -/
inductive FsAction where
  | createDirAll (dir : RPath)
  | writeFile (dest : RPath)
  | copyFile (src dest : RPath)
  | unpackEntry (idx : Nat) (dest : RPath)
  | extractTar (src dest : RPath)
  | extractZip (src dest : RPath)
  | rename (src dest : RPath)
  | removeDir (dir : RPath)
  | setPerm (p : RPath) (mode : Nat)
deriving DecidableEq, Repr

/-- Whether an action writes the contents of an installed file. -/
def FsAction.isWrite : FsAction → Bool
  | .writeFile _ | .copyFile _ _ | .unpackEntry _ _ => true
  | _ => false

/-- Result of a fallible Rust computation that may also panic: `ok` and
`error` mirror `Result`, while `aborted` models a panic (`.unwrap()` on an
`Err`), which aborts the process instead of returning. -/
inductive Outcome (α : Type) where
  | ok (a : α)
  | error (e : InstallerError)
  | aborted
deriving DecidableEq, Repr

/-- `ExeInstaller` (installer.rs:28-34). -/
structure ExeInstaller where
  install_path : RPath
  exe_file_stem : String
  is_windows : Bool
  extensions : List String
deriving Repr

/-- `ExeInstaller::new` (installer.rs:42-58): on Windows the recognized
suffix list is the Windows-only extensions from `Extension::iter`,
otherwise it is empty. -/
def ExeInstaller.new (install_path : RPath) (exe : String) (is_windows : Bool) : ExeInstaller :=
  { install_path
    exe_file_stem := exe
    is_windows
    extensions :=
      if is_windows then
        (Extension.iter.filter Extension.isWindowsOnly).map Extension.extension
      else [] }

example : (ExeInstaller.new ⟨false, ["p"]⟩ "x" true).extensions = [".bat", ".exe"] := by decide

/-- `ExeInstaller::archive_member_is_exact_match` (installer.rs:238-247).
Note that only the stem is lowercased; the candidate file name is compared
verbatim. -/
def ExeInstaller.archiveMemberIsExactMatch (self : ExeInstaller) (file_name : String) : Bool :=
  if self.extensions.isEmpty then
    file_name == self.exe_file_stem
  else
    (self.extensions.map fun ext => strToLower self.exe_file_stem ++ ext).any
      fun n => n == file_name

/-- `ExeInstaller::archive_member_is_partial_match` (installer.rs:249-259):
a case-sensitive stem prefix test, plus (when the Windows suffix list is
nonempty) a case-insensitive suffix test. -/
def ExeInstaller.archiveMemberIsPartialMatch (self : ExeInstaller) (file_name : String) : Bool :=
  if !(strStartsWith file_name self.exe_file_stem) then
    false
  else if self.extensions.isEmpty then
    true
  else
    self.extensions.any fun ext => strEndsWith (strToLower file_name) ext

/-- A tar archive entry as `best_match_from_tarball` reads it: the
entry-type file flag, the entry's path, whether the final path component
converts to UTF-8 (`file_name().to_str()` succeeds), and the Unix mode from
the tar header. -/
structure TarEntry where
  is_file : Bool
  path : RPath
  utf8Name : Bool
  mode : Nat
deriving DecidableEq, Repr

/-- The file name the matcher sees for a tar entry: `none` when the path has
no final component or its name is not valid UTF-8 (both are skipped). -/
def TarEntry.fileName? (e : TarEntry) : Option String :=
  e.path.fileName?.bind fun n => if e.utf8Name then some n else none

/-- A zip archive entry as `best_match_from_zip_archive` reads it.  The
`mode` field records the Unix mode stored in the entry's external
attributes; the code never reads it (installer.rs:222-223 notes that the
executable bit is deliberately not tested for zip). -/
structure ZipEntry where
  is_file : Bool
  path : RPath
  mode : Nat
deriving DecidableEq, Repr

/-- The loop of `ExeInstaller::best_match_from_tarball` (installer.rs:141-164):
`i` is the entry index, `acc` the `possible_matches` vector collected so
far.  An exact match returns its index immediately; a partial match is
collected only when the platform is Windows or the entry's mode has an
executable bit; at the end the first collected partial match wins. -/
def bestMatchTarGo (self : ExeInstaller) : Nat → List TarEntry → List Nat → Option Nat
  | _, [], acc => acc.head?
  | i, e :: rest, acc =>
    if !e.is_file then
      bestMatchTarGo self (i + 1) rest acc
    else
      match e.fileName? with
      | none => bestMatchTarGo self (i + 1) rest acc
      | some file_name =>
        if self.archiveMemberIsExactMatch file_name then
          some i
        else if self.archiveMemberIsPartialMatch file_name then
          if self.is_windows || e.mode &&& 0o111 != 0 then
            bestMatchTarGo self (i + 1) rest (acc ++ [i])
          else
            bestMatchTarGo self (i + 1) rest acc
        else
          bestMatchTarGo self (i + 1) rest acc

/-- `ExeInstaller::best_match_from_tarball` (installer.rs:138-167). -/
def ExeInstaller.bestMatchFromTarball (self : ExeInstaller) (entries : List TarEntry) : Option Nat :=
  bestMatchTarGo self 0 entries []

/-- The loop of `ExeInstaller::best_match_from_zip_archive`
(installer.rs:207-229), returning the `possible_matches` vector: an exact
match is pushed and the loop breaks; a partial match is pushed without any
mode test and the loop continues. -/
def zipPossibleMatches (self : ExeInstaller) : Nat → List ZipEntry → List Nat → List Nat
  | _, [], acc => acc
  | i, e :: rest, acc =>
    if e.is_file then
      match e.path.fileName? with
      | none => zipPossibleMatches self (i + 1) rest acc
      | some file_name =>
        if self.archiveMemberIsExactMatch file_name then
          acc ++ [i]
        else if self.archiveMemberIsPartialMatch file_name then
          zipPossibleMatches self (i + 1) rest (acc ++ [i])
        else
          zipPossibleMatches self (i + 1) rest acc
    else
      zipPossibleMatches self (i + 1) rest acc

/-- `ExeInstaller::best_match_from_zip_archive` (installer.rs:203-236): the
selected entry is `possible_matches.first()`. -/
def ExeInstaller.bestMatchFromZipArchive (self : ExeInstaller) (entries : List ZipEntry) : Option Nat :=
  (zipPossibleMatches self 0 entries []).head?

example :
    (ExeInstaller.new ⟨false, ["b", "p"]⟩ "project" false).bestMatchFromTarball
      [⟨true, ⟨false, ["project-x"]⟩, true, 0o755⟩, ⟨true, ⟨false, ["project"]⟩, true, 0o755⟩]
      = some 1 := by decide

example :
    (ExeInstaller.new ⟨false, ["b", "p"]⟩ "project" false).bestMatchFromZipArchive
      [⟨true, ⟨false, ["project-x"]⟩, 0⟩, ⟨true, ⟨false, ["project"]⟩, 0⟩]
      = some 0 := by decide

/-- The preserved-extension rewrite repeated at installer.rs:116-121,
179-184 and 310-315: when the matched/copied source path classifies to an
extension that should be preserved on install, the destination's extension
is rewritten to it. -/
def preservedInstallPath (install_path sourcePath : RPath) : RPath :=
  match Extension.fromPath sourcePath with
  | some ext =>
    if ext.shouldPreserveExtensionOnInstall then
      install_path.setExtension ext.extensionWithoutDot
    else install_path
  | none => install_path

/-- `ExeInstaller::create_install_dir` (installer.rs:325-336): error when
`install_path.parent()` is `None` ("install path at ... has no parent"),
otherwise `create_dir_all` on the parent, recorded as an action. -/
def ExeInstaller.createInstallDir (self : ExeInstaller) : Except InstallerError (List FsAction) :=
  match self.install_path.parent with
  | none => .error .noParent
  | some dir => .ok [.createDirAll dir]

/-- `ExeInstaller::write_to_install_path` (installer.rs:297-303): ensure the
install directory, then create the destination file and stream the decoder
into it (the three callers `unbzip`/`ungzip`/`unxz` differ only in the
decoder, which has no modelled effect). -/
def ExeInstaller.writeToInstallPath (self : ExeInstaller) : Except InstallerError (List FsAction) :=
  match self.createInstallDir with
  | .error e => .error e
  | .ok dirActs => .ok (dirActs ++ [.writeFile self.install_path])

/-- `ExeInstaller::copy_executable` (installer.rs:305-323): ensure the
install directory, rewrite the destination extension from the source name
when preserved, then copy the file byte for byte. -/
def ExeInstaller.copyExecutable (self : ExeInstaller) (exe_file : RPath) :
    Except InstallerError (RPath × List FsAction) :=
  match self.createInstallDir with
  | .error e => .error e
  | .ok dirActs =>
    .ok (preservedInstallPath self.install_path exe_file,
         dirActs ++ [.copyFile exe_file (preservedInstallPath self.install_path exe_file)])

/-- `ExeInstaller::extract_executable_from_tarball` (installer.rs:91-136).
`unpackOk` says whether `entry.unpack(&install_path)` succeeds; on failure
the source calls `.unwrap()` (installer.rs:129), which panics — modelled as
`Outcome.aborted`.  When the matcher finds no entry the result is the
`could_not_find_archive_matches_error`. -/
def ExeInstaller.extractExecutableFromTarball (self : ExeInstaller)
    (entries : List TarEntry) (unpackOk : Bool) : Outcome (RPath × List FsAction) :=
  match self.bestMatchFromTarball entries with
  | some idx =>
    match entries.get? idx with
    | some entry =>
      match self.createInstallDir with
      | .error e => .error e
      | .ok dirActs =>
        if unpackOk then
          .ok (preservedInstallPath self.install_path entry.path,
               dirActs ++ [.unpackEntry idx (preservedInstallPath self.install_path entry.path)])
        else .aborted
    | none => .error .couldNotFindArchiveMatches
  | none => .error .couldNotFindArchiveMatches

/-- `ExeInstaller::extract_executable_from_zip` (installer.rs:169-201): the
matched entry is read fully into memory, then the install directory is
ensured and the buffer written to the destination. -/
def ExeInstaller.extractExecutableFromZip (self : ExeInstaller)
    (entries : List ZipEntry) : Outcome (RPath × List FsAction) :=
  match self.bestMatchFromZipArchive entries with
  | some idx =>
    match entries.get? idx with
    | some entry =>
      match self.createInstallDir with
      | .error e => .error e
      | .ok dirActs =>
        .ok (preservedInstallPath self.install_path entry.path,
             dirActs ++ [.writeFile (preservedInstallPath self.install_path entry.path)])
    | none => .error .couldNotFindArchiveMatches
  | none => .error .couldNotFindArchiveMatches

/-- The downloaded asset together with the archive data the flows read: the
tar entries (with whether the selected entry's unpack succeeds) and the zip
entries.  Only the part matching the asset's classified Format is consulted. -/
structure AssetInput where
  path : RPath
  tarEntries : List TarEntry
  unpackOk : Bool
  zipEntries : List ZipEntry

/-- `ExeInstaller::extract_executable` (installer.rs:60-89): dispatch on the
classified Format.  Returns the possibly-rewritten install path (`none` for
the bare-compressor flows, mirroring `Ok(None)`) and the actions performed. -/
def ExeInstaller.extractExecutable (self : ExeInstaller) (a : AssetInput) :
    Outcome (Option RPath × List FsAction) :=
  match Extension.fromPath a.path with
  | some .Tar | some .TarBz | some .TarBz2 | some .TarGz | some .TarXz
  | some .Tbz | some .Tgz | some .Txz =>
    match self.extractExecutableFromTarball a.tarEntries a.unpackOk with
    | .ok (p, acts) => .ok (some p, acts)
    | .error e => .error e
    | .aborted => .aborted
  | some .Bz | some .Bz2 =>
    match self.writeToInstallPath with
    | .error e => .error e
    | .ok acts => .ok (none, acts)
  | some .Gz =>
    match self.writeToInstallPath with
    | .error e => .error e
    | .ok acts => .ok (none, acts)
  | some .Xz =>
    match self.writeToInstallPath with
    | .error e => .error e
    | .ok acts => .ok (none, acts)
  | some .Zip =>
    match self.extractExecutableFromZip a.zipEntries with
    | .ok (p, acts) => .ok (some p, acts)
    | .error e => .error e
    | .aborted => .aborted
  | some .AppImage | some .Bat | some .Exe | some .Pyz | none =>
    match self.copyExecutable a.path with
    | .error e => .error e
    | .ok (p, acts) => .ok (some p, acts)

/-- `<ExeInstaller as Installer>::install` (installer.rs:352-361) on the
Unix build: extract the executable, then `chmod_executable` sets mode 0o755
on the installed file (the extracted path when one was returned, otherwise
the caller's install path). -/
def ExeInstaller.install (self : ExeInstaller) (a : AssetInput) :
    Outcome (RPath × List FsAction) :=
  match self.extractExecutable a with
  | .ok (exe, acts) =>
    .ok (exe.getD self.install_path,
         acts ++ [.setPerm (exe.getD self.install_path) 0o755])
  | .error e => .error e
  | .aborted => .aborted

/-- Filesystem state: contents (as byte lists) and permission modes of
files.  Only the actions the theorems below inspect are interpreted:
`copyFile` copies the source's contents and `setPerm` sets a mode;
directory creation does not change file contents, and the content effects
of the remaining actions are not consulted by any theorem. -/
structure FState where
  files : RPath → Option (List Nat)
  modes : RPath → Option Nat

/-- Apply one action to the filesystem state. -/
def FState.apply (s : FState) : FsAction → FState
  | .copyFile src dest =>
    { s with files := fun q => if q = dest then s.files src else s.files q }
  | .setPerm p m =>
    { s with modes := fun q => if q = p then some m else s.modes q }
  | _ => s

/-- Run a list of actions in order. -/
def FState.run (s : FState) (acts : List FsAction) : FState :=
  acts.foldl FState.apply s

/-- An immediate child of the install root as `should_move_up_one_dir`
enumerates it with `fs::read_dir`: the path relative to the install root
(as components) and whether the full path is a regular file.  Directory
enumeration always yields a single nonempty name as the relative path; the
list form keeps the source's component handling intact. -/
structure RootEntry where
  relPath : List String
  is_file : Bool
deriving DecidableEq, Repr

/-- The loop of `ArchiveInstaller::should_move_up_one_dir`
(installer.rs:415-453): a regular file whose parent is the install root
(relative path of length one) short-circuits to `false`; otherwise the
first path component is inserted into the prefix set, and an entry with no
components is an error.  After the loop: true iff the set has one member. -/
def shouldMoveUpGo : List RootEntry → List String → Except InstallerError Bool
  | [], prefixes => .ok (prefixes.length == 1)
  | e :: rest, prefixes =>
    if e.is_file && e.relPath.length == 1 then
      .ok false
    else
      match e.relPath.head? with
      | some pre => shouldMoveUpGo rest (prefixes.insert pre)
      | none => .error .noPathComponents

/-- `ArchiveInstaller::should_move_up_one_dir` (installer.rs:415-453). -/
def ArchiveInstaller.shouldMoveUpOneDir (entries : List RootEntry) : Except InstallerError Bool :=
  shouldMoveUpGo entries []

/-- `ArchiveInstaller::move_contents_up_one_dir` (installer.rs:455-479):
takes the first entry of the install root as the top-level directory,
renames each of its children up one level, then removes it.
`wrapperChildren` is the `read_dir` listing of that top-level directory. -/
def ArchiveInstaller.moveContentsUpOneDir (path : RPath) (entries : List RootEntry)
    (wrapperChildren : List String) : Except InstallerError (List FsAction) :=
  match entries with
  | [] => .error .noDirInPath
  | top :: _ =>
    let top_level_path := path.joinRel top.relPath
    .ok ((wrapperChildren.map fun c => FsAction.rename (top_level_path.child c) (path.child c))
          ++ [.removeDir top_level_path])

/-- The step after extraction in `ArchiveInstaller::extract_entire_archive`
(installer.rs:394-398): flatten when `should_move_up_one_dir` says so. -/
def archiveFlattenStep (install_root : RPath) (acts : List FsAction)
    (entries : List RootEntry) (wrapperChildren : List String) :
    Except InstallerError (List FsAction) :=
  match ArchiveInstaller.shouldMoveUpOneDir entries with
  | .error e => .error e
  | .ok true =>
    match ArchiveInstaller.moveContentsUpOneDir install_root entries wrapperChildren with
    | .error e => .error e
    | .ok moveActs => .ok (acts ++ moveActs)
  | .ok false => .ok acts

/-- `ArchiveInstaller::extract_entire_archive` (installer.rs:370-401):
tar-family Formats extract the whole tarball, zip extracts the whole zip,
and any other Format is `NotAnArchiveError` with nothing extracted.
`entries` are the install root's immediate children after extraction and
`wrapperChildren` the listing of its first child. -/
def ArchiveInstaller.extractEntireArchive (install_root downloaded_file : RPath)
    (entries : List RootEntry) (wrapperChildren : List String) :
    Except InstallerError (List FsAction) :=
  match Extension.fromPath downloaded_file with
  | some .Tar | some .TarBz | some .TarBz2 | some .TarGz | some .TarXz
  | some .Tbz | some .Tgz | some .Txz =>
    archiveFlattenStep install_root [.extractTar downloaded_file install_root] entries wrapperChildren
  | some .Zip =>
    archiveFlattenStep install_root [.extractZip downloaded_file install_root] entries wrapperChildren
  | _ => .error .notAnArchive

example :
    (ExeInstaller.new ⟨false, ["b", "p"]⟩ "project" true).archiveMemberIsExactMatch "project.exe"
      = true := by decide

/-- C1: the claim says the Entry Matcher returns the first Exact match and
never a Partial match when an Exact match exists, regardless of order.  On
the zip side the code violates this: with stem `project` on a non-Windows
platform and zip entries `project-helper` (a partial match, stored first)
followed by `project` (an exact match), `best_match_from_zip_archive`
pushes the partial match, then pushes the exact match and breaks, but
finally returns `possible_matches.first()` — the earlier partial match,
index 0, not the exact match at index 1. -/
theorem C1_zip_partial_selected_over_exact :
    (ExeInstaller.new ⟨false, ["bin", "project"]⟩ "project" false).archiveMemberIsExactMatch
        "project" = true
    ∧ (ExeInstaller.new ⟨false, ["bin", "project"]⟩ "project" false).archiveMemberIsExactMatch
        "project-helper" = false
    ∧ (ExeInstaller.new ⟨false, ["bin", "project"]⟩ "project" false).archiveMemberIsPartialMatch
        "project-helper" = true
    ∧ (ExeInstaller.new ⟨false, ["bin", "project"]⟩ "project" false).bestMatchFromZipArchive
        [⟨true, ⟨false, ["project-helper"]⟩, 0⟩, ⟨true, ⟨false, ["project"]⟩, 0⟩]
      = some 0 := by decide

/-- C2 counterexample: with stem `project` on Windows, the base name
`PROJECT.exe` differs from `project.exe` (the stem followed by the suffix
`.exe`) only in the letter case of the stem portion, so under the claim it
is an Exact match; the code compares the candidate verbatim against the
lowercased stem plus suffix and rejects it. -/
theorem C2_counterexample_stem_case_only :
    (ExeInstaller.new ⟨false, ["bin", "p"]⟩ "project" true).archiveMemberIsExactMatch
        "PROJECT.exe" = false
    ∧ (ExeInstaller.new ⟨false, ["bin", "p"]⟩ "project" true).archiveMemberIsExactMatch
        "project.exe" = true := by decide

/-- C3 counterexample: on a non-Windows platform, a zip entry whose base
name `project-extra` starts with the stem `project` but does not equal it,
and whose stored Unix mode is 0 (no executable bit), is still selected as a
Partial match — the zip matcher never consults the mode. -/
theorem C3_counterexample_zip_ignores_mode :
    (ExeInstaller.new ⟨false, ["bin", "p"]⟩ "project" false).archiveMemberIsExactMatch
        "project-extra" = false
    ∧ (0 : Nat) &&& 0o111 = 0
    ∧ (ExeInstaller.new ⟨false, ["bin", "p"]⟩ "project" false).bestMatchFromZipArchive
        [⟨true, ⟨false, ["project-extra"]⟩, 0⟩]
      = some 0 := by decide

/-- C4 counterexample: for an install root with no entries at all — where no
immediate child is a regular file (vacuously) and the set of first path
components of the entries' relative paths is empty — the claim requires a
failure with `EmptyArchiveError`, but `should_move_up_one_dir` returns
`Ok(false)` (the empty prefix set does not have exactly one member) and no
error occurs. -/
theorem C4_counterexample_empty_root_ok_false :
    ArchiveInstaller.shouldMoveUpOneDir [] = .ok false
    ∧ ArchiveInstaller.shouldMoveUpOneDir [] ≠ .error .noPathComponents :=
  ⟨rfl, fun h => Except.noConfusion h⟩

/-- C6: the claim (and spec) say every failure during a single-file
install, including an I/O failure while unpacking the matched tar entry, is
returned as an error result.  The code instead calls
`entry.unpack(&install_path).unwrap()` (installer.rs:129): evaluated on a
tarball whose entry `project` matches exactly, with the unpack failing, the
operation aborts (panics) instead of returning an error. -/
theorem C6_unpack_failure_aborts :
    (ExeInstaller.new ⟨false, ["bin", "project"]⟩ "project" false).extractExecutableFromTarball
        [⟨true, ⟨false, ["project"]⟩, true, 0o755⟩] false
      = .aborted := by decide

/-- On Windows, `ExeInstaller::new` builds exactly the suffix list
[".bat", ".exe"]. -/
lemma ExeInstaller.new_windows_extensions (p : RPath) (s : String) :
    (ExeInstaller.new p s true).extensions = [".bat", ".exe"] := rfl

/-- Exact matching evaluated on an installer whose recognized suffix list is
exactly [".bat", ".exe"]. -/
lemma archiveMemberIsExactMatch_two (self : ExeInstaller)
    (h : self.extensions = [".bat", ".exe"]) (f : String) :
    self.archiveMemberIsExactMatch f
      = (strToLower self.exe_file_stem ++ ".bat" == f
         || strToLower self.exe_file_stem ++ ".exe" == f) := by
  simp [ExeInstaller.archiveMemberIsExactMatch, h]

/-- C2: corrected form.  On Windows a base name is classified as an Exact
match iff it equals, verbatim, the lowercased stem followed by `.bat` or by
`.exe`: only the stem is lowercased before comparison, so the candidate
name's own letter case is never folded. -/
theorem C2_exact_match_windows_amended (p : RPath) (s f : String) :
    (ExeInstaller.new p s true).archiveMemberIsExactMatch f
      = (strToLower s ++ ".bat" == f || strToLower s ++ ".exe" == f) := by
  have h := archiveMemberIsExactMatch_two (ExeInstaller.new p s true)
    (ExeInstaller.new_windows_extensions p s) f
  simpa using h

/-- Index-shift invariance of the tarball matching loop: running from a
start index one higher, with the collected matches shifted accordingly,
shifts the result. -/
lemma bestMatchTarGo_shift (self : ExeInstaller) (entries : List TarEntry) :
    ∀ (i : Nat) (acc : List Nat),
      bestMatchTarGo self (i + 1) entries (acc.map (· + 1))
        = (bestMatchTarGo self i entries acc).map (· + 1) := by
  induction entries with
  | nil =>
    intro i acc
    simp [bestMatchTarGo]
  | cons e rest ih =>
    intro i acc
    cases hf : e.is_file with
    | false => simp [bestMatchTarGo, hf, ih]
    | true =>
      cases hn : e.fileName? with
      | none => simp [bestMatchTarGo, hf, hn, ih]
      | some name =>
        cases hex : self.archiveMemberIsExactMatch name with
        | true => simp [bestMatchTarGo, hf, hn, hex]
        | false =>
          cases hpar : self.archiveMemberIsPartialMatch name with
          | false => simp [bestMatchTarGo, hf, hn, hex, hpar, ih]
          | true =>
            cases hc : (self.is_windows || e.mode &&& 0o111 != 0) with
            | false => simp [bestMatchTarGo, hf, hn, hex, hpar, hc, ih]
            | true =>
              have hmap : acc.map (· + 1) ++ [i + 1] = (acc ++ [i]).map (· + 1) := by
                simp
              simp only [bestMatchTarGo, hf, hn, hex, hpar, hc, Bool.not_true,
                Bool.false_eq_true, if_false, if_true]
              rw [hmap, ih]

/-- Index-shift invariance of the zip matching loop. -/
lemma zipPossibleMatches_shift (self : ExeInstaller) (entries : List ZipEntry) :
    ∀ (i : Nat) (acc : List Nat),
      zipPossibleMatches self (i + 1) entries (acc.map (· + 1))
        = (zipPossibleMatches self i entries acc).map (· + 1) := by
  induction entries with
  | nil => intro i acc; simp [zipPossibleMatches]
  | cons e rest ih =>
    intro i acc
    cases hf : e.is_file with
    | false => simp [zipPossibleMatches, hf, ih]
    | true =>
      cases hn : e.path.fileName? with
      | none => simp [zipPossibleMatches, hf, hn, ih]
      | some name =>
        cases hex : self.archiveMemberIsExactMatch name with
        | true => simp [zipPossibleMatches, hf, hn, hex]
        | false =>
          cases hpar : self.archiveMemberIsPartialMatch name with
          | false => simp [zipPossibleMatches, hf, hn, hex, hpar, ih]
          | true =>
            have hmap : acc.map (· + 1) ++ [i + 1] = (acc ++ [i]).map (· + 1) := by
              simp
            simp only [zipPossibleMatches, hf, hn, hex, hpar, Bool.false_eq_true,
              if_false, if_true]
            rw [hmap, ih]

/-- Entries the tarball loop cannot name are skipped without effect. -/
lemma bestMatchTarGo_all_skip (self : ExeInstaller) (entries : List TarEntry) :
    ∀ (i : Nat) (acc : List Nat), (∀ e ∈ entries, e.fileName? = none) →
      bestMatchTarGo self i entries acc = acc.head? := by
  induction entries with
  | nil => intro i acc _; simp [bestMatchTarGo]
  | cons e rest ih =>
    intro i acc h
    have he : e.fileName? = none := h e (List.mem_cons_self e rest)
    have hrest : ∀ x ∈ rest, x.fileName? = none := fun x hx => h x (List.mem_cons_of_mem e hx)
    cases hf : e.is_file with
    | false => simp [bestMatchTarGo, hf, ih _ _ hrest]
    | true => simp [bestMatchTarGo, hf, he, ih _ _ hrest]

/-- Entries the zip loop cannot name are skipped without effect. -/
lemma zipPossibleMatches_all_skip (self : ExeInstaller) (entries : List ZipEntry) :
    ∀ (i : Nat) (acc : List Nat), (∀ e ∈ entries, e.path.fileName? = none) →
      zipPossibleMatches self i entries acc = acc := by
  induction entries with
  | nil => intro i acc _; simp [zipPossibleMatches]
  | cons e rest ih =>
    intro i acc h
    have he : e.path.fileName? = none := h e (List.mem_cons_self e rest)
    have hrest : ∀ x ∈ rest, x.path.fileName? = none := fun x hx => h x (List.mem_cons_of_mem e hx)
    cases hf : e.is_file with
    | false => simp [zipPossibleMatches, hf, ih _ _ hrest]
    | true => simp [zipPossibleMatches, hf, he, ih _ _ hrest]

/-- Soundness of the tarball matching loop: any returned index was either
already collected or designates a file entry that is an exact match, or a
partial match passing the Windows-or-executable-bit test. -/
lemma bestMatchTarGo_sound (self : ExeInstaller) (entries : List TarEntry) :
    ∀ (i : Nat) (acc : List Nat) (j : Nat),
      bestMatchTarGo self i entries acc = some j →
      j ∈ acc ∨ ∃ t e, entries.get? t = some e ∧ j = i + t ∧ e.is_file = true ∧
        ∃ n, e.fileName? = some n ∧
          (self.archiveMemberIsExactMatch n = true ∨
           (self.archiveMemberIsPartialMatch n = true ∧
            (self.is_windows = true ∨ e.mode &&& 0o111 ≠ 0))) := by
  induction entries with
  | nil =>
    intro i acc j h
    simp only [bestMatchTarGo] at h
    exact Or.inl (List.mem_of_mem_head? (by simp [h]))
  | cons e rest ih =>
    intro i acc j h
    have lift : (j ∈ acc ∨ ∃ t x, rest.get? t = some x ∧ j = (i + 1) + t ∧ x.is_file = true ∧
        ∃ n, x.fileName? = some n ∧
          (self.archiveMemberIsExactMatch n = true ∨
           (self.archiveMemberIsPartialMatch n = true ∧
            (self.is_windows = true ∨ x.mode &&& 0o111 ≠ 0)))) →
        j ∈ acc ∨ ∃ t x, (e :: rest).get? t = some x ∧ j = i + t ∧ x.is_file = true ∧
        ∃ n, x.fileName? = some n ∧
          (self.archiveMemberIsExactMatch n = true ∨
           (self.archiveMemberIsPartialMatch n = true ∧
            (self.is_windows = true ∨ x.mode &&& 0o111 ≠ 0))) := by
      rintro (hj | ⟨t, x, hget, hj, hrest⟩)
      · exact Or.inl hj
      · exact Or.inr ⟨t + 1, x, by simpa using hget, by omega, hrest⟩
    cases hf : e.is_file with
    | false =>
      rw [bestMatchTarGo, hf] at h
      exact lift (ih _ _ _ (by simpa using h))
    | true =>
      cases hn : e.fileName? with
      | none =>
        rw [bestMatchTarGo, hf] at h
        simp only [hn, Bool.not_true, Bool.false_eq_true, if_false] at h
        exact lift (ih _ _ _ h)
      | some name =>
        cases hex : self.archiveMemberIsExactMatch name with
        | true =>
          rw [bestMatchTarGo, hf] at h
          simp only [hn, hex, Bool.not_true, Bool.false_eq_true, if_false, if_true] at h
          have hji : j = i := (Option.some.inj h).symm
          subst hji
          exact Or.inr ⟨0, e, by simp, by omega, hf, name, hn, Or.inl hex⟩
        | false =>
          cases hpar : self.archiveMemberIsPartialMatch name with
          | false =>
            rw [bestMatchTarGo, hf] at h
            simp only [hn, hex, hpar, Bool.not_true, Bool.false_eq_true, if_false] at h
            exact lift (ih _ _ _ h)
          | true =>
            cases hc : (self.is_windows || e.mode &&& 0o111 != 0) with
            | false =>
              rw [bestMatchTarGo, hf] at h
              simp only [hn, hex, hpar, hc, Bool.not_true, Bool.false_eq_true, if_false] at h
              exact lift (ih _ _ _ h)
            | true =>
              rw [bestMatchTarGo, hf] at h
              simp only [hn, hex, hpar, hc, Bool.not_true, Bool.false_eq_true, if_false,
                if_true] at h
              rcases ih _ _ _ h with hj | hrest
              · rcases List.mem_append.mp hj with hj | hj
                · exact Or.inl hj
                · have : j = i := by simpa using hj
                  subst this
                  refine Or.inr ⟨0, e, by simp, by omega, hf, name, hn, Or.inr ⟨hpar, ?_⟩⟩
                  rcases Bool.or_eq_true_iff.mp hc with hw | hm
                  · exact Or.inl hw
                  · exact Or.inr (by simpa using hm)
              · exact lift (Or.inr hrest)

/-- The zip matching loop reads only the file flag and the path of each
entry: replacing every entry's stored mode leaves the collected matches
unchanged. -/
lemma zipPossibleMatches_mode_irrel (self : ExeInstaller) (entries : List ZipEntry)
    (f : ZipEntry → Nat) :
    ∀ (i : Nat) (acc : List Nat),
      zipPossibleMatches self i (entries.map fun e => ⟨e.is_file, e.path, f e⟩) acc
        = zipPossibleMatches self i entries acc := by
  induction entries with
  | nil => intro i acc; simp
  | cons e rest ih =>
    intro i acc
    cases hf : e.is_file with
    | false => simp [zipPossibleMatches, hf, ih]
    | true =>
      cases hn : e.path.fileName? with
      | none => simp [zipPossibleMatches, hf, hn, ih]
      | some name =>
        cases hex : self.archiveMemberIsExactMatch name with
        | true => simp [zipPossibleMatches, hf, hn, hex]
        | false =>
          cases hpar : self.archiveMemberIsPartialMatch name with
          | false => simp [zipPossibleMatches, hf, hn, hex, hpar, ih]
          | true => simp [zipPossibleMatches, hf, hn, hex, hpar, ih]

/-- C3: corrected form.  The executable-bit requirement for Partial matches
on a non-Windows platform applies to tar entries only: any index the tar
matcher returns designates a file entry that is an exact match or a partial
match with an executable bit in its stored mode.  The zip matcher never
consults the stored mode at all — replacing every zip entry's mode leaves
its selection unchanged — so a non-executable zip entry can be selected as
a Partial match (see the counterexample). -/
theorem C3_amended_exec_bit_tar_only :
    (∀ (p : RPath) (s : String) (entries : List TarEntry) (j : Nat),
        (ExeInstaller.new p s false).bestMatchFromTarball entries = some j →
        ∃ e, entries.get? j = some e ∧ e.is_file = true ∧
          ∃ n, e.fileName? = some n ∧
            ((ExeInstaller.new p s false).archiveMemberIsExactMatch n = true ∨
             ((ExeInstaller.new p s false).archiveMemberIsPartialMatch n = true ∧
              e.mode &&& 0o111 ≠ 0)))
    ∧ (∀ (p : RPath) (s : String) (w : Bool) (entries : List ZipEntry) (f : ZipEntry → Nat),
        (ExeInstaller.new p s w).bestMatchFromZipArchive
            (entries.map fun e => ⟨e.is_file, e.path, f e⟩)
          = (ExeInstaller.new p s w).bestMatchFromZipArchive entries) := by
  constructor
  · intro p s entries j h
    rcases bestMatchTarGo_sound (ExeInstaller.new p s false) entries 0 [] j h with hj | hrest
    · simp at hj
    · obtain ⟨t, e, hget, hj, hfile, n, hn, hcls⟩ := hrest
      have ht : t = j := by omega
      subst ht
      refine ⟨e, hget, hfile, n, hn, ?_⟩
      rcases hcls with hex | ⟨hpar, hw⟩
      · exact Or.inl hex
      · rcases hw with hwin | hbit
        · exact absurd hwin (by simp [ExeInstaller.new])
        · exact Or.inr ⟨hpar, hbit⟩
  · intro p s w entries f
    unfold ExeInstaller.bestMatchFromZipArchive
    rw [zipPossibleMatches_mode_irrel]

/-- C3 witness: the amended theorem applied at a concrete tarball whose only
entry `project-x` is a partial match with mode 0o755, and at a concrete
mode-rewrite of a concrete zip archive. -/
theorem C3_amended_exec_bit_tar_only_witness :
    (∃ e, [TarEntry.mk true ⟨false, ["project-x"]⟩ true 0o755].get? 0 = some e
      ∧ e.is_file = true ∧ ∃ n, e.fileName? = some n ∧
        ((ExeInstaller.new ⟨false, ["bin", "p"]⟩ "project" false).archiveMemberIsExactMatch n
            = true ∨
         ((ExeInstaller.new ⟨false, ["bin", "p"]⟩ "project" false).archiveMemberIsPartialMatch n
            = true ∧ e.mode &&& 0o111 ≠ 0)))
    ∧ (ExeInstaller.new ⟨false, ["bin", "p"]⟩ "project" false).bestMatchFromZipArchive
        ([ZipEntry.mk true ⟨false, ["project-x"]⟩ 0o755].map fun e => ⟨e.is_file, e.path, 0⟩)
      = (ExeInstaller.new ⟨false, ["bin", "p"]⟩ "project" false).bestMatchFromZipArchive
        [ZipEntry.mk true ⟨false, ["project-x"]⟩ 0o755] :=
  ⟨C3_amended_exec_bit_tar_only.1 ⟨false, ["bin", "p"]⟩ "project"
      [TarEntry.mk true ⟨false, ["project-x"]⟩ true 0o755] 0 (by decide),
   C3_amended_exec_bit_tar_only.2 ⟨false, ["bin", "p"]⟩ "project" false
      [ZipEntry.mk true ⟨false, ["project-x"]⟩ 0o755] (fun _ => 0)⟩

/-- C10: during entry matching (tar and zip alike) a file entry whose path
has no final file-name component, or (for tar) whose file name is not valid
UTF-8, is silently skipped: prepending such an entry only shifts the
selected index by one and never causes an error; and when only such entries
exist the extraction flows report the no-matching-entry error. -/
theorem C10_matcher_skips_nameless :
    (∀ (self : ExeInstaller) (e : TarEntry) (rest : List TarEntry),
        e.fileName? = none →
        self.bestMatchFromTarball (e :: rest)
          = (self.bestMatchFromTarball rest).map (· + 1))
    ∧ (∀ (self : ExeInstaller) (e : ZipEntry) (rest : List ZipEntry),
        e.path.fileName? = none →
        self.bestMatchFromZipArchive (e :: rest)
          = (self.bestMatchFromZipArchive rest).map (· + 1))
    ∧ (∀ (self : ExeInstaller) (entries : List TarEntry) (unpackOk : Bool),
        (∀ e ∈ entries, e.fileName? = none) →
        self.extractExecutableFromTarball entries unpackOk
          = .error .couldNotFindArchiveMatches)
    ∧ (∀ (self : ExeInstaller) (entries : List ZipEntry),
        (∀ e ∈ entries, e.path.fileName? = none) →
        self.extractExecutableFromZip entries = .error .couldNotFindArchiveMatches) := by
  refine ⟨?_, ?_, ?_, ?_⟩
  · intro self e rest hn
    unfold ExeInstaller.bestMatchFromTarball
    have step : bestMatchTarGo self 0 (e :: rest) [] = bestMatchTarGo self 1 rest [] := by
      cases hf : e.is_file with
      | false => simp [bestMatchTarGo, hf]
      | true => simp [bestMatchTarGo, hf, hn]
    rw [step]
    have := bestMatchTarGo_shift self rest 0 []
    simpa using this
  · intro self e rest hn
    unfold ExeInstaller.bestMatchFromZipArchive
    have step : zipPossibleMatches self 0 (e :: rest) [] = zipPossibleMatches self 1 rest [] := by
      cases hf : e.is_file with
      | false => simp [zipPossibleMatches, hf]
      | true => simp [zipPossibleMatches, hf, hn]
    rw [step]
    have := zipPossibleMatches_shift self rest 0 []
    simp only [List.map_nil] at this
    rw [this, List.head?_map]
  · intro self entries unpackOk h
    have hb : self.bestMatchFromTarball entries = none := by
      unfold ExeInstaller.bestMatchFromTarball
      rw [bestMatchTarGo_all_skip self entries 0 [] h]
      rfl
    unfold ExeInstaller.extractExecutableFromTarball
    rw [hb]
  · intro self entries h
    have hb : self.bestMatchFromZipArchive entries = none := by
      unfold ExeInstaller.bestMatchFromZipArchive
      rw [zipPossibleMatches_all_skip self entries 0 [] h]
      rfl
    unfold ExeInstaller.extractExecutableFromZip
    rw [hb]

/-- C10 witness: the four parts of the skip theorem applied at concrete
inputs — a file entry whose path has no final component prepended to a
one-entry archive, and archives consisting only of such entries. -/
theorem C10_matcher_skips_nameless_witness :
    (ExeInstaller.new ⟨false, ["bin", "p"]⟩ "project" false).bestMatchFromTarball
        [⟨true, ⟨false, []⟩, true, 0⟩, ⟨true, ⟨false, ["project"]⟩, true, 0o755⟩]
      = ((ExeInstaller.new ⟨false, ["bin", "p"]⟩ "project" false).bestMatchFromTarball
          [⟨true, ⟨false, ["project"]⟩, true, 0o755⟩]).map (· + 1)
    ∧ (ExeInstaller.new ⟨false, ["bin", "p"]⟩ "project" false).bestMatchFromZipArchive
        [⟨true, ⟨false, []⟩, 0⟩, ⟨true, ⟨false, ["project"]⟩, 0⟩]
      = ((ExeInstaller.new ⟨false, ["bin", "p"]⟩ "project" false).bestMatchFromZipArchive
          [⟨true, ⟨false, ["project"]⟩, 0⟩]).map (· + 1)
    ∧ (ExeInstaller.new ⟨false, ["bin", "p"]⟩ "project" false).extractExecutableFromTarball
        [⟨true, ⟨false, []⟩, true, 0⟩] true = .error .couldNotFindArchiveMatches
    ∧ (ExeInstaller.new ⟨false, ["bin", "p"]⟩ "project" false).extractExecutableFromZip
        [⟨true, ⟨false, []⟩, 0⟩] = .error .couldNotFindArchiveMatches :=
  ⟨C10_matcher_skips_nameless.1 _ _ _ rfl,
   C10_matcher_skips_nameless.2.1 _ _ _ rfl,
   C10_matcher_skips_nameless.2.2.1 _ _ true (by intro e he; simp at he; subst he; rfl),
   C10_matcher_skips_nameless.2.2.2 _ _ (by intro e he; simp at he; subst he; rfl)⟩


/-- A successful `create_install_dir` means the install path had a parent,
and the single action performed is the recursive creation of that parent. -/
lemma createInstallDir_ok_shape (self : ExeInstaller) (dirActs : List FsAction) :
    self.createInstallDir = .ok dirActs →
    ∃ d, self.install_path.parent = some d ∧ dirActs = [.createDirAll d] := by
  unfold ExeInstaller.createInstallDir
  cases h : self.install_path.parent with
  | none => simp
  | some d =>
    intro hh
    exact ⟨d, rfl, (Except.ok.inj hh).symm⟩

/-- Successful tarball extraction performs exactly a parent-directory
creation followed by the unpack of the selected entry. -/
lemma extractTarball_ok_shape (self : ExeInstaller) (entries : List TarEntry) (unpackOk : Bool)
    (p : RPath) (acts : List FsAction) :
    self.extractExecutableFromTarball entries unpackOk = .ok (p, acts) →
    ∃ d w, self.install_path.parent = some d ∧ acts = [.createDirAll d, w]
      ∧ w.isWrite = true := by
  intro hh
  unfold ExeInstaller.extractExecutableFromTarball at hh
  split at hh
  · split at hh
    · split at hh
      · simp at hh
      · rename_i idx heq entry hget dirActs hc
        obtain ⟨d, hd, rfl⟩ := createInstallDir_ok_shape self dirActs hc
        split at hh
        · injection hh with h1
          injection h1 with hp hacts
          subst hacts
          exact ⟨d, _, hd, rfl, rfl⟩
        · simp at hh
    · simp at hh
  · simp at hh

/-- Successful zip extraction performs exactly a parent-directory creation
followed by the write of the buffered entry. -/
lemma extractZip_ok_shape (self : ExeInstaller) (entries : List ZipEntry)
    (p : RPath) (acts : List FsAction) :
    self.extractExecutableFromZip entries = .ok (p, acts) →
    ∃ d w, self.install_path.parent = some d ∧ acts = [.createDirAll d, w]
      ∧ w.isWrite = true := by
  intro hh
  unfold ExeInstaller.extractExecutableFromZip at hh
  split at hh
  · split at hh
    · split at hh
      · simp at hh
      · rename_i idx heq entry hget dirActs hc
        obtain ⟨d, hd, rfl⟩ := createInstallDir_ok_shape self dirActs hc
        injection hh with h1
        injection h1 with hp hacts
        subst hacts
        exact ⟨d, _, hd, rfl, rfl⟩
    · simp at hh
  · simp at hh

/-- A successful bare-compressor flow performs exactly a parent-directory
creation followed by the write of the decompressed stream. -/
lemma writeToInstallPath_ok_shape (self : ExeInstaller) (acts : List FsAction) :
    self.writeToInstallPath = .ok acts →
    ∃ d w, self.install_path.parent = some d ∧ acts = [.createDirAll d, w]
      ∧ w.isWrite = true := by
  intro hh
  unfold ExeInstaller.writeToInstallPath at hh
  split at hh
  · simp at hh
  · rename_i dirActs hc
    obtain ⟨d, hd, rfl⟩ := createInstallDir_ok_shape self dirActs hc
    have h2 := Except.ok.inj hh
    subst h2
    exact ⟨d, _, hd, rfl, rfl⟩

/-- A successful copy flow performs exactly a parent-directory creation
followed by the byte-for-byte copy. -/
lemma copyExecutable_ok_shape (self : ExeInstaller) (exe_file : RPath)
    (p : RPath) (acts : List FsAction) :
    self.copyExecutable exe_file = .ok (p, acts) →
    ∃ d w, self.install_path.parent = some d ∧ acts = [.createDirAll d, w]
      ∧ w.isWrite = true := by
  intro hh
  unfold ExeInstaller.copyExecutable at hh
  split at hh
  · simp at hh
  · rename_i dirActs hc
    obtain ⟨d, hd, rfl⟩ := createInstallDir_ok_shape self dirActs hc
    injection hh with h1
    injection h1 with hp hacts
    subst hacts
    exact ⟨d, _, hd, rfl, rfl⟩

/-- C5: corrected form.  `create_install_dir` fails with the
InstallDirectoryError ("install path has no parent") exactly when the
destination path's Rust parent is `None`, i.e. the destination is the empty
path or a bare root; a bare filename has the empty path as parent and does
not trigger this error (the subsequent recursive create of "" surfaces as
an I/O error instead).  And whenever the extraction step of a single-file
install succeeds, its first action is the recursive creation of the
destination's parent directory, which precedes the single write action. -/
theorem C5_amended_parent_dir (self : ExeInstaller) :
    (self.createInstallDir = .error .noParent ↔ self.install_path.components = [])
    ∧ (∀ (a : AssetInput) (r : Option RPath) (acts : List FsAction),
        self.extractExecutable a = .ok (r, acts) →
        ∃ d w, self.install_path.parent = some d ∧ acts = [.createDirAll d, w]
          ∧ w.isWrite = true) := by
  constructor
  · unfold ExeInstaller.createInstallDir RPath.parent
    cases h : self.install_path.components with
    | nil => simp [h]
    | cons c cs => simp [h]
  · intro a r acts h
    unfold ExeInstaller.extractExecutable at h
    split at h
    all_goals
      split at h <;>
        first
        | exact Outcome.noConfusion h
        | (injection h with h1
           injection h1 with hr hacts
           subst hacts
           first
           | exact extractTarball_ok_shape self a.tarEntries a.unpackOk _ _ (by assumption)
           | exact writeToInstallPath_ok_shape self _ (by assumption)
           | exact extractZip_ok_shape self a.zipEntries _ _ (by assumption)
           | exact copyExecutable_ok_shape self a.path _ _ (by assumption))

/-- C5 counterexample: a bare filename destination (`project`, no
directory) has the empty path as its Rust parent, so `create_install_dir`
does not fail with the InstallDirectoryError the claim requires — it
proceeds to create the empty relative path recursively. -/
theorem C5_counterexample_bare_filename :
    (ExeInstaller.new ⟨false, ["project"]⟩ "project" false).createInstallDir
      = .ok [.createDirAll ⟨false, []⟩]
    ∧ (ExeInstaller.new ⟨false, ["project"]⟩ "project" false).createInstallDir
      ≠ .error .noParent :=
  ⟨rfl, fun h => Except.noConfusion h⟩

/-- C5 witness: the amended theorem applied to a destination with no
components (the iff part) and to a concrete successful copy-flow extraction. -/
theorem C5_amended_parent_dir_witness :
    ((ExeInstaller.new ⟨false, []⟩ "p" false).createInstallDir = .error .noParent
      ↔ (ExeInstaller.new ⟨false, []⟩ "p" false).install_path.components = [])
    ∧ ∃ d w,
        (ExeInstaller.new ⟨false, ["bin", "proj"]⟩ "proj" false).install_path.parent = some d
        ∧ [FsAction.createDirAll ⟨false, ["bin"]⟩,
           FsAction.copyFile ⟨false, ["dl", "project.pyz"]⟩ ⟨false, ["bin", "proj.pyz"]⟩]
          = [.createDirAll d, w]
        ∧ w.isWrite = true :=
  ⟨(C5_amended_parent_dir (ExeInstaller.new ⟨false, []⟩ "p" false)).1,
   (C5_amended_parent_dir (ExeInstaller.new ⟨false, ["bin", "proj"]⟩ "proj" false)).2
     ⟨⟨false, ["dl", "project.pyz"]⟩, [], true, []⟩
     (some ⟨false, ["bin", "proj.pyz"]⟩)
     [FsAction.createDirAll ⟨false, ["bin"]⟩,
      FsAction.copyFile ⟨false, ["dl", "project.pyz"]⟩ ⟨false, ["bin", "proj.pyz"]⟩]
     rfl⟩

/-- Characterization of the `should_move_up_one_dir` loop for entries whose
relative paths have exactly one component (which is what `fs::read_dir`
yields): the result is `Ok`, true iff no entry is a regular file and the
accumulated prefix set has exactly one member. -/
lemma shouldMoveUpGo_eq (entries : List RootEntry) :
    ∀ acc : List String, (∀ e ∈ entries, e.relPath.length = 1) →
      shouldMoveUpGo entries acc =
        .ok ((entries.all fun e => !e.is_file) &&
          (((entries.filterMap fun e => e.relPath.head?).foldl
              (fun a p => a.insert p) acc).length == 1)) := by
  induction entries with
  | nil => intro acc _; simp [shouldMoveUpGo]
  | cons e rest ih =>
    intro acc wf
    obtain ⟨n, hn⟩ := List.length_eq_one.mp (wf e (List.mem_cons_self e rest))
    have wfrest : ∀ x ∈ rest, x.relPath.length = 1 :=
      fun x hx => wf x (List.mem_cons_of_mem e hx)
    cases hf : e.is_file with
    | true => simp [shouldMoveUpGo, hf, hn]
    | false => simp [shouldMoveUpGo, hf, hn, ih (acc.insert n) wfrest]

/-- Folding `List.insert` over pairwise-distinct names not already present
grows the accumulator by one per name — the model of inserting distinct
names into a `HashSet`. -/
lemma foldl_insert_length (ns : List String) :
    ∀ acc : List String, ns.Nodup → (∀ n ∈ ns, n ∉ acc) →
      (ns.foldl (fun a p => a.insert p) acc).length = acc.length + ns.length := by
  induction ns with
  | nil => intro acc _ _; simp
  | cons n rest ih =>
    intro acc nd dis
    have hnacc : n ∉ acc := dis n (List.mem_cons_self n rest)
    have hn_rest : n ∉ rest := (List.nodup_cons.mp nd).1
    have dis2 : ∀ x ∈ rest, x ∉ acc.insert n := by
      intro x hx hmem
      rcases List.mem_insert_iff.mp hmem with hxn | hxa
      · exact hn_rest (hxn ▸ hx)
      · exact dis x (List.mem_cons_of_mem n hx) hxa
    rw [List.foldl_cons, ih (acc.insert n) (List.nodup_cons.mp nd).2 dis2,
      List.length_insert_of_not_mem hnacc]
    simp only [List.length_cons]
    omega

/-- Entries with single-component relative paths each contribute exactly one
first component. -/
lemma filterMapHead_length : ∀ (entries : List RootEntry),
    (∀ e ∈ entries, e.relPath.length = 1) →
    (entries.filterMap fun e => e.relPath.head?).length = entries.length := by
  intro entries
  induction entries with
  | nil => intro _; simp
  | cons e rest ih =>
    intro wf
    obtain ⟨n, hn⟩ := List.length_eq_one.mp (wf e (List.mem_cons_self e rest))
    have := ih fun x hx => wf x (List.mem_cons_of_mem e hx)
    simp [hn, List.filterMap_cons, this]

/-- C4: corrected form.  When the install root's entries all have
single-component relative paths (as directory enumeration guarantees), no
immediate child is a regular file, and the set of first path components is
empty, then the install root has no entries at all, and
`should_move_up_one_dir` returns `Ok(false)` — no flattening, no error —
rather than failing with `EmptyArchiveError`.  (That error is only produced
for an inspected entry whose relative path has no components, which
enumeration of the install root never yields.) -/
theorem C4_amended_empty_set_no_error (entries : List RootEntry)
    (wf : ∀ e ∈ entries, e.relPath.length = 1)
    (_hnf : ∀ e ∈ entries, e.is_file = false)
    (hempty : entries.filterMap (fun e => e.relPath.head?) = []) :
    ArchiveInstaller.shouldMoveUpOneDir entries = .ok false := by
  have hlen := filterMapHead_length entries wf
  rw [hempty] at hlen
  have hnil : entries = [] := List.eq_nil_of_length_eq_zero hlen.symm
  subst hnil
  rfl

/-- C4 witness: the amended theorem applied to the empty install root. -/
theorem C4_amended_empty_set_no_error_witness :
    ([] : List RootEntry).filterMap (fun e => e.relPath.head?) = []
    ∧ ArchiveInstaller.shouldMoveUpOneDir [] = .ok false :=
  ⟨rfl, C4_amended_empty_set_no_error [] (by simp) (by simp) rfl⟩

/-- C7: the flattening step runs iff no immediate child of the install root
is a regular file and the set of first path components of the entries'
relative paths has exactly one member (for directory-enumeration entries:
single-component relative paths with pairwise-distinct names); in
particular two distinct top-level names are never flattened.  When
flattening runs, the single name is the wrapper directory:
`move_contents_up_one_dir` renames every child of the wrapper up one level
into the install root and then removes the wrapper directory. -/
theorem C7_flattening_iff_single_prefix (root : RPath) (entries : List RootEntry)
    (wchildren : List String)
    (wf : ∀ e ∈ entries, e.relPath.length = 1)
    (nd : (entries.filterMap fun e => e.relPath.head?).Nodup) :
    (ArchiveInstaller.shouldMoveUpOneDir entries = .ok true
      ↔ (∀ e ∈ entries, e.is_file = false)
        ∧ (entries.filterMap fun e => e.relPath.head?).dedup.length = 1)
    ∧ (ArchiveInstaller.shouldMoveUpOneDir entries = .ok true →
        ∃ w, (entries.filterMap fun e => e.relPath.head?) = [w]
          ∧ ArchiveInstaller.moveContentsUpOneDir root entries wchildren
            = .ok ((wchildren.map fun c =>
                      FsAction.rename ((root.child w).child c) (root.child c))
                   ++ [.removeDir (root.child w)])) := by
  have hchar :
      ArchiveInstaller.shouldMoveUpOneDir entries =
        .ok ((entries.all fun e => !e.is_file) &&
          (((entries.filterMap fun e => e.relPath.head?).foldl
              (fun a p => a.insert p) []).length == 1)) :=
    shouldMoveUpGo_eq entries [] wf
  have hfl :
      ((entries.filterMap fun e => e.relPath.head?).foldl
          (fun a p => a.insert p) []).length
        = (entries.filterMap fun e => e.relPath.head?).length := by
    simpa using
      foldl_insert_length (entries.filterMap fun e => e.relPath.head?) [] nd (by simp)
  have hded : (entries.filterMap fun e => e.relPath.head?).dedup
      = entries.filterMap fun e => e.relPath.head? := List.Nodup.dedup nd
  have part1 :
      ArchiveInstaller.shouldMoveUpOneDir entries = .ok true
        ↔ (∀ e ∈ entries, e.is_file = false)
          ∧ (entries.filterMap fun e => e.relPath.head?).dedup.length = 1 := by
    rw [hchar]
    constructor
    · intro h
      have hb := Except.ok.inj h
      have hall := (Bool.and_eq_true _ _).mp hb
      constructor
      · intro e he
        have := List.all_eq_true.mp hall.1 e he
        simpa using this
      · rw [hded]
        have hb2 := hall.2
        simp only [beq_iff_eq] at hb2
        rw [hfl] at hb2
        exact hb2
    · rintro ⟨h1, h2⟩
      rw [hded] at h2
      have hall : (entries.all fun e => !e.is_file) = true :=
        List.all_eq_true.mpr fun e he => by simp [h1 e he]
      have hlen : ((entries.filterMap fun e => e.relPath.head?).foldl
          (fun a p => a.insert p) []).length == 1 := by
        rw [hfl, h2]
        rfl
      rw [hall, hlen]
      rfl
  refine ⟨part1, fun h => ?_⟩
  obtain ⟨h1, h2⟩ := part1.mp h
  rw [hded] at h2
  obtain ⟨w, hw⟩ := List.length_eq_one.mp h2
  have hcnt := filterMapHead_length entries wf
  rw [hw] at hcnt
  obtain ⟨e0, he0⟩ := List.length_eq_one.mp hcnt.symm
  subst he0
  obtain ⟨n0, hn0⟩ := List.length_eq_one.mp (wf e0 (List.mem_cons_self e0 []))
  have hwn : n0 = w := by
    simp only [List.filterMap_cons, List.filterMap_nil, hn0, List.head?_cons] at hw
    simpa using hw
  subst hwn
  refine ⟨n0, hw, ?_⟩
  simp [ArchiveInstaller.moveContentsUpOneDir, hn0, RPath.joinRel, RPath.child]

/-- C7 witness: the theorem applied to an install root holding a single
directory `wrapper` with children `bin` and `README.md`. -/
theorem C7_flattening_iff_single_prefix_witness :
    (ArchiveInstaller.shouldMoveUpOneDir [⟨["wrapper"], false⟩] = .ok true
      ↔ (∀ e ∈ [RootEntry.mk ["wrapper"] false], e.is_file = false)
        ∧ ([RootEntry.mk ["wrapper"] false].filterMap
            fun e => e.relPath.head?).dedup.length = 1)
    ∧ (ArchiveInstaller.shouldMoveUpOneDir [⟨["wrapper"], false⟩] = .ok true →
        ∃ w, ([RootEntry.mk ["wrapper"] false].filterMap fun e => e.relPath.head?) = [w]
          ∧ ArchiveInstaller.moveContentsUpOneDir ⟨true, ["inst"]⟩
              [⟨["wrapper"], false⟩] ["bin", "README.md"]
            = .ok ((["bin", "README.md"].map fun c =>
                      FsAction.rename (((⟨true, ["inst"]⟩ : RPath).child w).child c)
                        ((⟨true, ["inst"]⟩ : RPath).child c))
                   ++ [.removeDir ((⟨true, ["inst"]⟩ : RPath).child w)])) :=
  C7_flattening_iff_single_prefix ⟨true, ["inst"]⟩ [⟨["wrapper"], false⟩]
    ["bin", "README.md"] (by decide) (by decide)

/-- The flattening check can only fail with the no-path-components error. -/
lemma shouldMoveUpGo_error_kind : ∀ (entries : List RootEntry) (acc : List String)
    (e : InstallerError), shouldMoveUpGo entries acc = .error e → e = .noPathComponents := by
  intro entries
  induction entries with
  | nil => intro acc e h; simp [shouldMoveUpGo] at h
  | cons x rest ih =>
    intro acc e h
    rw [shouldMoveUpGo] at h
    split at h
    · simp at h
    · split at h
      · exact ih _ _ h
      · exact (Except.error.inj h).symm

/-- The move-up step can only fail with the no-directory error. -/
lemma moveContents_error_kind (root : RPath) (entries : List RootEntry)
    (wchildren : List String) (e : InstallerError) :
    ArchiveInstaller.moveContentsUpOneDir root entries wchildren = .error e →
    e = .noDirInPath := by
  unfold ArchiveInstaller.moveContentsUpOneDir
  cases entries with
  | nil => intro h; exact (Except.error.inj h).symm
  | cons top rest => intro h; simp at h

/-- The post-extraction flattening step never produces the
`NotAnArchiveError`. -/
lemma archiveFlattenStep_ne_notAnArchive (install_root : RPath) (acts : List FsAction)
    (entries : List RootEntry) (wchildren : List String) :
    archiveFlattenStep install_root acts entries wchildren ≠ .error .notAnArchive := by
  unfold archiveFlattenStep
  cases hs : ArchiveInstaller.shouldMoveUpOneDir entries with
  | error e =>
    have := shouldMoveUpGo_error_kind entries [] e hs
    subst this
    intro hh
    exact InstallerError.noConfusion (Except.error.inj hh)
  | ok b =>
    cases b with
    | false => intro hh; simp at hh
    | true =>
      cases hm : ArchiveInstaller.moveContentsUpOneDir install_root entries wchildren with
      | error e =>
        have := moveContents_error_kind install_root entries wchildren e hm
        subst this
        intro hh
        exact InstallerError.noConfusion (Except.error.inj hh)
      | ok moveActs => intro hh; simp at hh

/-- The Formats accepted by `ArchiveInstaller::extract_entire_archive`: the
tar family and zip. -/
def isArchiveFormat : Option Extension → Bool
  | some .Tar | some .TarBz | some .TarBz2 | some .TarGz | some .TarXz
  | some .Tbz | some .Tgz | some .Txz | some .Zip => true
  | _ => false

/-- C8: the whole-archive install fails with `NotAnArchiveError` exactly
when the asset's Format is neither a tar-family member nor zip; for such
assets the error is produced before any extraction action, and for
tar-family or zip assets that error never occurs (whatever the extracted
contents are). -/
theorem C8_not_an_archive_iff (install_root downloaded_file : RPath)
    (entries : List RootEntry) (wchildren : List String) :
    ArchiveInstaller.extractEntireArchive install_root downloaded_file entries wchildren
      = .error .notAnArchive
    ↔ isArchiveFormat (Extension.fromPath downloaded_file) = false := by
  unfold ArchiveInstaller.extractEntireArchive
  cases hf : Extension.fromPath downloaded_file with
  | none => simp [isArchiveFormat]
  | some ext =>
    cases ext <;>
      simp [isArchiveFormat, archiveFlattenStep_ne_notAnArchive]

/-- A character list without a dot has no last-dot split. -/
lemma lastDotSplit_none_of_no_dot : ∀ cs : List Char, '.' ∉ cs → lastDotSplit cs = none := by
  intro cs
  induction cs with
  | nil => intro _; rfl
  | cons c rest ih =>
    intro h
    have hc : c ≠ '.' := fun hh => h (hh ▸ List.mem_cons_self c rest)
    have hrest : '.' ∉ rest := fun hh => h (List.mem_cons_of_mem c hh)
    rw [lastDotSplit, ih hrest]
    simp [hc]

/-- Splitting at the last dot of `xs ++ "." ++ ys` when `ys` has no dot
yields exactly `(xs, ys)`. -/
lemma lastDotSplit_append (xs ys : List Char) (h : '.' ∉ ys) :
    lastDotSplit (xs ++ '.' :: ys) = some (xs, ys) := by
  induction xs with
  | nil =>
    rw [List.nil_append, lastDotSplit, lastDotSplit_none_of_no_dot ys h]
    simp
  | cons x rest ih =>
    rw [List.cons_append, lastDotSplit, ih]

/-- The Rust file stem of a nonempty name is nonempty. -/
lemma rustSplitExt_stem_ne (name : String) (h : name.data ≠ []) :
    ((rustSplitExt name).1).data ≠ [] := by
  unfold rustSplitExt
  cases hd : lastDotSplit name.data with
  | none => exact h
  | some pr =>
    cases hpre : pr.1.isEmpty with
    | true => simp [hpre]; exact h
    | false =>
      simp [hpre]
      intro hh
      rw [hh] at hpre
      simp at hpre

/-- `set_extension` with a nonempty dot-free extension on a path whose
final component is a nonempty name yields a path whose Rust extension is
exactly that extension. -/
lemma setExtension_extension (p : RPath) (ext : String)
    (hne : p.components ≠ []) (hval : ∀ c ∈ p.components, c ≠ "")
    (hdot : '.' ∉ ext.data) (hextne : ext.data ≠ []) :
    (p.setExtension ext).extension = some ext := by
  obtain ⟨name, hname⟩ := Option.isSome_iff_exists.mp
    (List.getLast?_isSome.mpr hne)
  have hmem : name ∈ p.components := by
    obtain ⟨hne2, heq⟩ := List.mem_getLast?_eq_getLast (Option.mem_def.mpr hname)
    rw [heq]
    exact List.getLast_mem hne2
  have hnamene : name.data ≠ [] := by
    intro hh
    exact hval name hmem (by cases name; simp at hh; simp [hh])
  have hstem := rustSplitExt_stem_ne name hnamene
  unfold RPath.setExtension
  rw [hname]
  have hnotempty : ext.data.isEmpty = false := by
    cases hld : ext.data with
    | nil => exact absurd hld hextne
    | cons a t => rfl
  rw [hnotempty]
  simp only [Bool.false_eq_true, if_false]
  unfold RPath.extension RPath.fileName?
  rw [List.getLast?_concat]
  simp only [Option.some_bind]
  generalize hg : (rustSplitExt name).1 = stemStr
  rw [hg] at hstem
  unfold rustSplitExt
  have hdata : (stemStr ++ "." ++ ext).data = stemStr.data ++ '.' :: ext.data := by
    show (stemStr.data ++ ['.']) ++ ext.data = stemStr.data ++ '.' :: ext.data
    rw [List.append_assoc]
    rfl
  rw [hdata, lastDotSplit_append _ _ hdot]
  simp [List.isEmpty_iff, hstem]

/-- The pyz variant's extension string without its dot. -/
lemma extensionWithoutDot_pyz : Extension.extensionWithoutDot .Pyz = "pyz" := by decide

/-- A path with at least one component has its all-but-last components as
parent. -/
lemma parent_of_cons (p : RPath) (a : String) (t : List String)
    (hc : p.components = a :: t) :
    p.parent = some ⟨p.absolute, p.components.dropLast⟩ := by
  unfold RPath.parent
  rw [hc]

/-- C9: single-file installation of a `.pyz` asset, on any platform flag,
goes through the copy flow: the destination's extension is rewritten to
`pyz` whatever extension the caller supplied, the asset is copied byte for
byte (so the installed contents — and hence length — equal the source's),
and the installed file's permissions are set to mode 0o755 (as the Unix
build of `chmod_executable` does). -/
theorem C9_pyz_install (dest src : RPath) (stem : String) (win : Bool)
    (tarE : List TarEntry) (unpackOk : Bool) (zipE : List ZipEntry)
    (s : FState) (bytes : List Nat)
    (hfmt : Extension.fromPath src = some .Pyz)
    (hne : dest.components ≠ [])
    (hval : ∀ c ∈ dest.components, c ≠ "")
    (hsrc : s.files src = some bytes) :
    ∃ d,
      (ExeInstaller.new dest stem win).install ⟨src, tarE, unpackOk, zipE⟩
        = .ok (dest.setExtension "pyz",
               [.createDirAll d,
                .copyFile src (dest.setExtension "pyz"),
                .setPerm (dest.setExtension "pyz") 0o755])
      ∧ (dest.setExtension "pyz").extension = some "pyz"
      ∧ (s.run [.createDirAll d,
                .copyFile src (dest.setExtension "pyz"),
                .setPerm (dest.setExtension "pyz") 0o755]).files (dest.setExtension "pyz")
          = some bytes
      ∧ (s.run [.createDirAll d,
                .copyFile src (dest.setExtension "pyz"),
                .setPerm (dest.setExtension "pyz") 0o755]).modes (dest.setExtension "pyz")
          = some 0o755 := by
  obtain ⟨a, t, hc⟩ : ∃ a t, dest.components = a :: t := by
    cases hcc : dest.components with
    | nil => exact absurd hcc hne
    | cons a t => exact ⟨a, t, rfl⟩
  have hpar := parent_of_cons dest a t hc
  refine ⟨⟨dest.absolute, dest.components.dropLast⟩, ?_, ?_, ?_, ?_⟩
  · simp only [ExeInstaller.install, ExeInstaller.extractExecutable, ExeInstaller.new,
      ExeInstaller.copyExecutable, ExeInstaller.createInstallDir, preservedInstallPath,
      hfmt, hpar, Extension.shouldPreserveExtensionOnInstall, extensionWithoutDot_pyz,
      Option.getD_some, List.cons_append, List.nil_append, if_true]
  · exact setExtension_extension dest "pyz" hne hval (by decide) (by decide)
  · simp [FState.run, FState.apply, hsrc]
  · simp [FState.run, FState.apply]

/-- C9 witness: the theorem applied to installing `dl/project.pyz` with
stem `proj` to destination `bin/proj` on a filesystem holding three bytes
at the source. -/
theorem C9_pyz_install_witness :
    ∃ d,
      (ExeInstaller.new ⟨false, ["bin", "proj"]⟩ "proj" false).install
          ⟨⟨false, ["dl", "project.pyz"]⟩, [], true, []⟩
        = .ok ((⟨false, ["bin", "proj"]⟩ : RPath).setExtension "pyz",
               [.createDirAll d,
                .copyFile ⟨false, ["dl", "project.pyz"]⟩
                  ((⟨false, ["bin", "proj"]⟩ : RPath).setExtension "pyz"),
                .setPerm ((⟨false, ["bin", "proj"]⟩ : RPath).setExtension "pyz") 0o755])
      ∧ ((⟨false, ["bin", "proj"]⟩ : RPath).setExtension "pyz").extension = some "pyz"
      ∧ ((FState.mk (fun q => if q = ⟨false, ["dl", "project.pyz"]⟩ then some [7, 8, 9] else none)
            (fun _ => none)).run
          [.createDirAll d,
           .copyFile ⟨false, ["dl", "project.pyz"]⟩
             ((⟨false, ["bin", "proj"]⟩ : RPath).setExtension "pyz"),
           .setPerm ((⟨false, ["bin", "proj"]⟩ : RPath).setExtension "pyz") 0o755]).files
          ((⟨false, ["bin", "proj"]⟩ : RPath).setExtension "pyz")
        = some [7, 8, 9]
      ∧ ((FState.mk (fun q => if q = ⟨false, ["dl", "project.pyz"]⟩ then some [7, 8, 9] else none)
            (fun _ => none)).run
          [.createDirAll d,
           .copyFile ⟨false, ["dl", "project.pyz"]⟩
             ((⟨false, ["bin", "proj"]⟩ : RPath).setExtension "pyz"),
           .setPerm ((⟨false, ["bin", "proj"]⟩ : RPath).setExtension "pyz") 0o755]).modes
          ((⟨false, ["bin", "proj"]⟩ : RPath).setExtension "pyz")
        = some 0o755 :=
  C9_pyz_install ⟨false, ["bin", "proj"]⟩ ⟨false, ["dl", "project.pyz"]⟩ "proj" false
    [] true []
    ⟨fun q => if q = ⟨false, ["dl", "project.pyz"]⟩ then some [7, 8, 9] else none, fun _ => none⟩
    [7, 8, 9] (by decide) (by decide) (by decide) (by simp)
